import Mathlib

/-!
Shallow embedding of the `codecrafters-git-rust` object store
(`src/main.rs`, `src/sha1hash.rs`) and proofs about its specification.

Bytes are modelled as `Nat` values below 256, byte strings as `List Nat`.
Machine words of the hash are `Nat` values reduced modulo `2 ^ 32`.
-/

set_option maxRecDepth 100000

namespace GitRs

/-! ## Bytes and text -/

/-- UTF-8 encoding of one character (the byte sequence Rust writes for it). -/
def utf8EncodeCharNat (c : Char) : List Nat :=
  let n := c.toNat
  if n < 0x80 then [n]
  else if n < 0x800 then [0xC0 ||| (n >>> 6), 0x80 ||| (n &&& 0x3F)]
  else if n < 0x10000 then
    [0xE0 ||| (n >>> 12), 0x80 ||| ((n >>> 6) &&& 0x3F), 0x80 ||| (n &&& 0x3F)]
  else
    [0xF0 ||| (n >>> 18), 0x80 ||| ((n >>> 12) &&& 0x3F),
     0x80 ||| ((n >>> 6) &&& 0x3F), 0x80 ||| (n &&& 0x3F)]

/-- The bytes of a Rust `&str` / `String` (UTF-8). -/
def strBytes (s : String) : List Nat :=
  s.data.flatMap utf8EncodeCharNat

/-- Lower-case hex digit for a value below 16, as `hex::encode` uses. -/
def hexDigitChar (n : Nat) : Char :=
  if n < 10 then Char.ofNat (48 + n) else Char.ofNat (87 + n)

/-- `hex::encode`: two lower-case hex characters per byte. -/
def hexEncode (bytes : List Nat) : List Char :=
  bytes.flatMap fun b => [hexDigitChar (b / 16 % 16), hexDigitChar (b % 16)]

/-! ## SHA-1 (`sha1hash.rs`, `Sha1Hash::hash` via the `sha1` crate)

A pure implementation of SHA-1 over byte lists, all 32-bit arithmetic done
in `Nat` modulo `2 ^ 32`. -/

/-- `2 ^ 32`, the word modulus. -/
def m32 : Nat := 4294967296

/-- Rotate a 32-bit word left by `n` bits. -/
def rotl (n x : Nat) : Nat :=
  ((x <<< n) % m32) ||| (x >>> (32 - n))

/-- Big-endian byte rendering of `n` in exactly `k` bytes. -/
def beBytes : Nat → Nat → List Nat
  | 0, _ => []
  | k + 1, n => beBytes k (n >>> 8) ++ [n % 256]

/-- Group a byte list into big-endian 32-bit words (16 words per block). -/
def wordsOf : List Nat → List Nat
  | a :: b :: c :: d :: rest =>
      (((a * 256 + b) * 256 + c) * 256 + d) :: wordsOf rest
  | _ => []

/-- Message-schedule extension: append `k` more words, each the 1-bit left
rotation of the xor of the words 3, 8, 14 and 16 positions back. -/
def extendW (ws : List Nat) : Nat → List Nat
  | 0 => ws
  | k + 1 =>
      let L := ws.length
      let w := rotl 1 ((ws.getD (L - 3) 0 ^^^ ws.getD (L - 8) 0) ^^^
                       (ws.getD (L - 14) 0 ^^^ ws.getD (L - 16) 0))
      extendW (ws ++ [w]) k

/-- Working state of one compression: five 32-bit words. -/
structure Sha1State where
  a : Nat
  b : Nat
  c : Nat
  d : Nat
  e : Nat
deriving Repr, DecidableEq

/-- Round function and constant for round `i`. -/
def fK (i b c d : Nat) : Nat × Nat :=
  if i < 20 then ((b &&& c) ||| ((b ^^^ 0xFFFFFFFF) &&& d), 0x5A827999)
  else if i < 40 then ((b ^^^ c) ^^^ d, 0x6ED9EBA1)
  else if i < 60 then ((b &&& c) ||| (b &&& d) ||| (c &&& d), 0x8F1BBCDC)
  else ((b ^^^ c) ^^^ d, 0xCA62C1D6)

/-- The 80 SHA-1 rounds, one per schedule word. -/
def rounds : List Nat → Nat → Sha1State → Sha1State
  | [], _, st => st
  | w :: ws, i, st =>
      let (f, k) := fK i st.b st.c st.d
      let t := (rotl 5 st.a + f + st.e + k + w) % m32
      rounds ws (i + 1) ⟨t, st.a, rotl 30 st.b, st.c, st.d⟩

/-- Compress one 64-byte block into the running state. -/
def compressBlock (st : Sha1State) (block : List Nat) : Sha1State :=
  let ws := extendW (wordsOf block) 64
  let r := rounds ws 0 st
  ⟨(st.a + r.a) % m32, (st.b + r.b) % m32, (st.c + r.c) % m32,
   (st.d + r.d) % m32, (st.e + r.e) % m32⟩

/-- Feed bytes into the state, compressing each full 64-byte block. -/
def absorb (st : Sha1State) (buf : List Nat) : List Nat → Sha1State
  | [] => st
  | b :: rest =>
      let buf' := buf ++ [b]
      if buf'.length = 64 then absorb (compressBlock st buf') [] rest
      else absorb st buf' rest

/-- SHA-1 padding: a 0x80 byte, zeros to 56 mod 64, then the bit length
big-endian in 8 bytes. -/
def padMsg (msg : List Nat) : List Nat :=
  let len := msg.length
  msg ++ [128] ++ List.replicate ((119 - len % 64) % 64) 0 ++ beBytes 8 (len * 8)

/-- The initial SHA-1 state. -/
def sha1Init : Sha1State :=
  ⟨0x67452301, 0xEFCDAB89, 0x98BADCFE, 0x10325476, 0xC3D2E1F0⟩

/-- `Sha1Hash::hash`: the 20-byte SHA-1 digest of a byte list. -/
def sha1 (msg : List Nat) : List Nat :=
  let st := absorb sha1Init [] (padMsg msg)
  beBytes 4 st.a ++ beBytes 4 st.b ++ beBytes 4 st.c ++ beBytes 4 st.d ++ beBytes 4 st.e

/-! ## Decimal and octal rendering and parsing

`write_object` renders the payload length with `format!("{}", len)`;
`ls-tree` parses sizes with `str::parse::<usize>` and modes with
`u32::from_str_radix(s, 8)`.  Rendering is given fuel-based structural
recursion so that proofs can evaluate it. -/

/-- Decimal digit bytes of `n` (fuel-based; `fuel > n` suffices). -/
def decDigits : Nat → Nat → List Nat
  | 0, _ => []
  | fuel + 1, n => if n < 10 then [48 + n] else decDigits fuel (n / 10) ++ [48 + n % 10]

/-- The bytes `format!("{}", n)` produces. -/
def natDecBytes (n : Nat) : List Nat := decDigits (n + 1) n

/-- Octal digit bytes of `n`, as `format!("{:o}", n)` produces. -/
def octDigits : Nat → Nat → List Nat
  | 0, _ => []
  | fuel + 1, n => if n < 8 then [48 + n] else octDigits fuel (n / 8) ++ [48 + n % 8]

/-- The bytes `format!("{:o}", n)` produces. -/
def natOctBytes (n : Nat) : List Nat := octDigits (n + 1) n

/-- Accumulate base-`base` digit bytes (digit values `48 ≤ d < 48 + base`). -/
def parseRadixCore (base : Nat) : List Nat → Nat → Option Nat
  | [], acc => some acc
  | d :: rest, acc =>
      if 48 ≤ d ∧ d < 48 + base then parseRadixCore base rest (acc * base + (d - 48))
      else none

/-- Parse digit bytes in base `base`, failing on empty input, a non-digit
byte, or overflow past `lim` (the machine-integer bound). -/
def parseRadix (base lim : Nat) (l : List Nat) : Option Nat :=
  if l.isEmpty then none
  else match parseRadixCore base l 0 with
    | some v => if v < lim then some v else none
    | none => none

/-- `str::parse::<usize>` on bytes: optional `+` sign, then decimal digits. -/
def parseUsize (l : List Nat) : Option Nat :=
  if l.head? = some 43 then parseRadix 10 (2 ^ 64) l.tail
  else parseRadix 10 (2 ^ 64) l

/-- `u32::from_str_radix(s, 8)` on bytes: optional `+` sign, octal digits. -/
def parseOctU32 (l : List Nat) : Option Nat :=
  if l.head? = some 43 then parseRadix 8 (2 ^ 32) l.tail
  else parseRadix 8 (2 ^ 32) l

/-! ## The object envelope (`write_object`, lines 189–195 of `main.rs`) -/

/-- The envelope bytes `"<kind> <len>\0<payload>"` that `write_object`
assembles in `buf` before hashing. -/
def encodeObject (kind : String) (content : List Nat) : List Nat :=
  strBytes kind ++ [32] ++ natDecBytes content.length ++ [0] ++ content

/-- The identifier `write_object` returns: SHA-1 of the full envelope. -/
def writeObjectHash (kind : String) (content : List Nat) : List Nat :=
  sha1 (encodeObject kind content)

/-! ## Reading the decompressed stream

`cat-file` and `ls-tree` read the decompressed object through
`BufReader::read_until(0, …)` and `read_exact`. -/

/-- `read_until(0, buf)`: the bytes up to and including the first zero byte
(all remaining bytes when no zero occurs before EOF), paired with what is
left of the stream. -/
def readUntil0 : List Nat → List Nat × List Nat
  | [] => ([], [])
  | b :: rest =>
      if b = 0 then ([b], rest)
      else
        let p := readUntil0 rest
        (b :: p.1, p.2)

/-- UTF-8 validity (`std::str::from_utf8`) as a byte-driven scanner.
The first argument lists the admissible ranges for the pending
continuation bytes of the current code point. -/
def utf8Scan : List (Nat × Nat) → List Nat → Bool
  | [], [] => true
  | _ :: _, [] => false
  | (lo, hi) :: pend, b :: rest =>
      if lo ≤ b && b ≤ hi then utf8Scan pend rest else false
  | [], b :: rest =>
      if b < 0x80 then utf8Scan [] rest
      else if 0xC2 ≤ b && b ≤ 0xDF then utf8Scan [(0x80, 0xBF)] rest
      else if b = 0xE0 then utf8Scan [(0xA0, 0xBF), (0x80, 0xBF)] rest
      else if b = 0xED then utf8Scan [(0x80, 0x9F), (0x80, 0xBF)] rest
      else if 0xE1 ≤ b && b ≤ 0xEF then utf8Scan [(0x80, 0xBF), (0x80, 0xBF)] rest
      else if b = 0xF0 then utf8Scan [(0x90, 0xBF), (0x80, 0xBF), (0x80, 0xBF)] rest
      else if 0xF1 ≤ b && b ≤ 0xF3 then utf8Scan [(0x80, 0xBF), (0x80, 0xBF), (0x80, 0xBF)] rest
      else if b = 0xF4 then utf8Scan [(0x80, 0x8F), (0x80, 0xBF), (0x80, 0xBF)] rest
      else false

/-- `std::str::from_utf8(bytes).is_ok()`. -/
def validUtf8 (l : List Nat) : Bool := utf8Scan [] l

/-- `str::split_once(' ')`: the parts before and after the first space. -/
def splitOnceSpace : List Nat → Option (List Nat × List Nat)
  | [] => none
  | b :: rest =>
      if b = 32 then some ([], rest)
      else match splitOnceSpace rest with
        | some (l, r) => some (b :: l, r)
        | none => none

/-! ## The ls-tree entry loop (`main.rs` lines 75–99) -/

/-- A parsed tree entry: mode, name bytes, 20 identifier bytes. -/
structure TreeEntryP where
  mode : Nat
  name : List Nat
  sha : List Nat
deriving Repr, DecidableEq

/-- Failure outcomes of the entry loop.  `panicked` covers the `usize`
underflow aborts of debug builds (`buf[..read - 1]` when `read = 0`, and
`left -= read + 20` when the entry overshoots `left`). -/
inductive LsErr where
  | panicked
  | utf8Error
  | noSpace
  | badMode
  | eofSha
deriving Repr, DecidableEq

/-- One iteration of the loop body: `read_until(0)`, drop the delimiter,
decode the `"<mode> <name>"` segment, parse the mode in octal, then
`read_exact` 20 identifier bytes.  Returns the entry, the bytes consumed
(`read + 20`) and the rest of the stream. -/
def parseEntry (stream : List Nat) : Except LsErr (TreeEntryP × Nat × List Nat) :=
  let p := readUntil0 stream
  let read := p.1.length
  if read = 0 then .error .panicked
  else
    let header := p.1.take (read - 1)
    if validUtf8 header = false then .error .utf8Error
    else match splitOnceSpace header with
      | none => .error .noSpace
      | some (modeB, nameB) =>
        match parseOctU32 modeB with
        | none => .error .badMode
        | some mode =>
          if p.2.length < 20 then .error .eofSha
          else .ok (⟨mode, nameB, p.2.take 20⟩, read + 20, p.2.drop 20)

/-- The `while left > 0` loop.  The fuel argument only bounds the iteration
count; each successful iteration consumes at least 21 bytes of `left`, so
`fuel = left` at the top-level call can never be exhausted first. -/
def lsLoop : Nat → Nat → List Nat → Except LsErr (List TreeEntryP × List Nat)
  | _, 0, stream => .ok ([], stream)
  | 0, _ + 1, _ => .error .panicked
  | fuel + 1, left + 1, stream =>
      match parseEntry stream with
      | .error e => .error e
      | .ok (entry, c, s') =>
          if left + 1 < c then .error .panicked
          else match lsLoop fuel (left + 1 - c) s' with
            | .error e => .error e
            | .ok (es, rest) => .ok (entry :: es, rest)

/-- The entry loop run on a payload stream with declared length `L`. -/
def lsTreeParse (L : Nat) (stream : List Nat) : Except LsErr (List TreeEntryP × List Nat) :=
  lsLoop L L stream

/-- `{:06o}`: octal digits zero-padded on the left to width 6. -/
def natOct6 (n : Nat) : List Nat :=
  let d := natOctBytes n
  List.replicate (6 - d.length) 48 ++ d

/-- Lower-case hex digit byte for a value below 16. -/
def hexDigitByte (n : Nat) : Nat := if n < 10 then 48 + n else 87 + n

/-- The bytes of `hex::encode(bytes)`. -/
def hexBytes (bytes : List Nat) : List Nat :=
  bytes.flatMap fun b => [hexDigitByte (b / 16 % 16), hexDigitByte (b % 16)]

/-- The line `ls-tree` prints for one parsed entry (as output bytes):
the name alone under `--name-only`, otherwise
`"<mode:06o> tree <name> <hex sha>"` for mode `0o40000` and
`"<mode:06o> blob <name> <hex sha>"` for every other mode. -/
def renderEntry (nameOnly : Bool) (e : TreeEntryP) : List Nat :=
  if nameOnly then e.name
  else if e.mode = 16384 then
    natOct6 e.mode ++ strBytes " tree " ++ e.name ++ [32] ++ hexBytes e.sha
  else
    natOct6 e.mode ++ strBytes " blob " ++ e.name ++ [32] ++ hexBytes e.sha

/-- The sequence of lines the loop prints for its parsed entries. -/
def renderEntries (nameOnly : Bool) (es : List TreeEntryP) : List (List Nat) :=
  es.map (renderEntry nameOnly)

/-! ## `Sha1Hash::from_str` (`sha1hash.rs` lines 62–71) -/

/-- Outcome of `Sha1Hash::from_str`: the decoded 20 bytes, a `hex::decode`
format error, or the `copy_from_slice` length-mismatch panic. -/
inductive HexOutcome where
  | ok (bytes : List Nat)
  | formatError
  | panicked
deriving Repr, DecidableEq

/-- Is `c` an ASCII hex digit (`hex::decode` accepts both cases)? -/
def isHexDigitB (c : Char) : Bool :=
  (48 ≤ c.toNat && c.toNat ≤ 57) || (97 ≤ c.toNat && c.toNat ≤ 102) ||
    (65 ≤ c.toNat && c.toNat ≤ 70)

/-- Value of a hex digit character. -/
def hexVal (c : Char) : Nat :=
  if c.toNat ≤ 57 then c.toNat - 48
  else if c.toNat ≤ 70 then c.toNat - 55
  else c.toNat - 87

/-- `hex::decode`: bytes from pairs of hex digits; `none` on odd length or
on a non-hex character. -/
def hexDecode : List Char → Option (List Nat)
  | [] => some []
  | [_] => none
  | hi :: lo :: rest =>
      if isHexDigitB hi && isHexDigitB lo then
        (hexDecode rest).map fun bs => (hexVal hi * 16 + hexVal lo) :: bs
      else none

/-- `Sha1Hash::from_str`: `hex::decode(s)?`, then
`hash.copy_from_slice(&bytes)` into a 20-byte array — which panics when the
decoded length is not 20. -/
def sha1FromStr (s : List Char) : HexOutcome :=
  match hexDecode s with
  | none => .formatError
  | some bytes => if bytes.length = 20 then .ok bytes else .panicked

/-- The hex characters of a 20-byte identifier (`Display for Sha1Hash`). -/
def hexChars (bytes : List Nat) : List Char :=
  (hexBytes bytes).map Char.ofNat

/-- `filename_from_sha`: `".git/objects/<hex[0:2]>/<hex[2:40]>"`. -/
def filenameFromSha (h : List Nat) : List Char :=
  ".git/objects/".data ++ (hexChars h).take 2 ++ ['/'] ++ (hexChars h).drop 2

/-- `directory_from_sha`: `".git/objects/<hex[0:2]>"`. -/
def dirnameFromSha (h : List Nat) : List Char :=
  ".git/objects/".data ++ (hexChars h).take 2

/-- The object paths the `cat-file` arm opens: `File::open` is reached only
after `blob_sha.parse()?` succeeded. -/
def catFileOpens (s : List Char) : List (List Char) :=
  match sha1FromStr s with
  | .ok h => [filenameFromSha h]
  | _ => []

/-- The object paths the `ls-tree` arm opens: `File::open` is reached only
after `tree_sha.parse()?` succeeded. -/
def lsTreeOpens (s : List Char) : List (List Char) :=
  match sha1FromStr s with
  | .ok h => [filenameFromSha h]
  | _ => []

/-! ## The commit-tree arm (`main.rs` lines 105–129) -/

/-- `writeln!(buf, …)`: append the formatted text and a newline. -/
def wline (buf line : List Char) : List Char := buf ++ line ++ ['\n']

/-- The commit payload text assembled in `commit_buf`: a `tree` line, a
`parent` line when a parent was supplied, the fixed author and committer
lines, an empty line, then the message line. -/
def commitPayloadChars (tree : List Char) (parent : Option (List Char)) (msg : String) :
    List Char :=
  let b := wline [] ("tree ".data ++ tree)
  let b := match parent with
    | some p => wline b ("parent ".data ++ p)
    | none => b
  let b := wline b "author Noname <noreply@noname.com> 1709990458 +0200".data
  let b := wline b "committer Noname <noreply@noname.com> 1709990458 +0200".data
  let b := wline b []
  wline b msg.data

/-- The bytes of a character buffer (`String::as_bytes`). -/
def charsBytes (l : List Char) : List Nat := l.flatMap utf8EncodeCharNat

/-- The identifier `commit-tree` prints: `write_object("commit", payload)`.
The tree and parent identifiers appear in the payload in their re-rendered
(lower-case hex) `Display` form. -/
def commitId (tree : List Char) (parent : Option (List Char)) (msg : String) : List Nat :=
  writeObjectHash "commit" (charsBytes (commitPayloadChars tree parent msg))

/-- The object paths the `commit-tree` arm writes: `write_object` is reached
only after `tree_sha.parse()?` and the optional parent parse succeeded. -/
def commitTreeWrites (tree : List Char) (parent : Option (List Char)) (msg : String) :
    List (List Char) :=
  match sha1FromStr tree with
  | .ok t =>
      match parent with
      | none => [filenameFromSha (commitId (hexChars t) none msg)]
      | some p =>
          match sha1FromStr p with
          | .ok pb => [filenameFromSha (commitId (hexChars t) (some (hexChars pb)) msg)]
          | _ => []
  | _ => []

/-! ## `write_tree` (`main.rs` lines 146–187) -/

/-- Byte-wise lexicographic comparison of names: `Ord for str`, as used by
`entries.sort_by(|a, b| a.1.cmp(&b.1))`. -/
def lexLe : List Nat → List Nat → Bool
  | [], _ => true
  | _ :: _, [] => false
  | x :: xs, y :: ys =>
      if x < y then true
      else if y < x then false
      else lexLe xs ys

/-- The stable sort of the collected entries by name. -/
def sortEntries (l : List TreeEntryP) : List TreeEntryP :=
  l.mergeSort fun a b => lexLe a.name b.name

/-- One serialized entry: `"<mode:o> <name>\0"` then the 20 raw identifier
bytes (`write_fmt`, `put_u8(0)`, `put_slice`). -/
def serTreeEntry (e : TreeEntryP) : List Nat :=
  natOctBytes e.mode ++ [32] ++ e.name ++ [0] ++ e.sha

/-- The tree payload `write_tree` assembles: the sorted entries, serialized
and concatenated. -/
def treePayload (l : List TreeEntryP) : List Nat :=
  (sortEntries l).flatMap serTreeEntry

/-- The identifier of the stored tree object. -/
def writeTreeHash (l : List TreeEntryP) : List Nat :=
  writeObjectHash "tree" (treePayload l)

/-- A directory child as enumerated by `fs::read_dir`: its final name
component and whether it is a directory. -/
structure DirChild where
  name : String
  isDir : Bool
deriving Repr, DecidableEq

/-- `str::starts_with` on the characters of the two strings. -/
def startsWithStr (pre s : String) : Bool := pre.data.isPrefixOf s.data

/-- The entries `write_tree` collects from one directory's children, given
the identifier each child stores to (`write_tree` recursion for
directories, `hash_object` for files).  A child whose name starts with `.`
is skipped; every other child becomes an entry with mode `0o40000`
(directories) or `0o100644` (files). -/
def dirEntries (children : List DirChild) (f : DirChild → List Nat) : List TreeEntryP :=
  children.filterMap fun c =>
    if startsWithStr "." c.name then none
    else some ⟨if c.isDir then 16384 else 33188, strBytes c.name, f c⟩

/-! ## The filesystem effect of `write_object` (`main.rs` lines 189–214) -/

/-- The store state: the set of created directory paths and the files with
their contents (most recent write first). -/
structure FsState where
  dirs : List (List Char)
  files : List (List Char × List Nat)
deriving DecidableEq

/-- Look a path up among the stored files. -/
def lookupFile (path : List Char) : List (List Char × List Nat) → Option (List Nat)
  | [] => none
  | (p, v) :: rest => if p = path then some v else lookupFile path rest

/-- `create_dir_all`: record the directory path, idempotently. -/
def ensureDir (d : List Char) (dirs : List (List Char)) : List (List Char) :=
  if dirs.contains d then dirs else d :: dirs

/-- `write_object`: build the envelope, hash it, and — only when
`write_to_file` is set — create the fan-out directory and persist, at the
canonical path (truncating any previous file), the compression of the prefix
of the envelope that the single `file.write(&buf)` call consumed.
`Write::write` may consume fewer bytes than offered and the source discards
the returned count, so only `writeCount env` bytes of the envelope reach the
compressor before the encoder is finalized on drop; the deflate stream
itself is abstracted by the `compress` parameter. -/
def writeObjectFS (kind : String) (content : List Nat) (writeToFile : Bool)
    (compress : List Nat → List Nat) (writeCount : List Nat → Nat)
    (fs : FsState) : List Nat × FsState :=
  let env := encodeObject kind content
  let sha := sha1 env
  if writeToFile then
    let fname := filenameFromSha sha
    (sha, ⟨ensureDir (dirnameFromSha sha) fs.dirs,
           (fname, compress (env.take (writeCount env))) ::
             fs.files.filter fun kv => kv.1 ≠ fname⟩)
  else (sha, fs)

/-- `hash_object`: read the file, then `write_object("blob", …, write)`. -/
def hashObjectFS (path : List Char) (writeToFile : Bool)
    (compress : List Nat → List Nat) (writeCount : List Nat → Nat)
    (fs : FsState) : Option (List Nat × FsState) :=
  match lookupFile path fs.files with
  | none => none
  | some bytes => some (writeObjectFS "blob" bytes writeToFile compress writeCount fs)

/-! ## The object read path (`cat-file` lines 33–47, generalized over the
expected kind label as the `ls-tree` arm does for `"tree "`) -/

/-- Failure outcomes of reading an envelope. -/
inductive ReadErr where
  | panicked
  | utf8Error
  | badPrefix
  | badSize
  | eofPayload
deriving Repr, DecidableEq

/-- `str::strip_prefix` on bytes. -/
def stripPrefixBytes (pre l : List Nat) : Option (List Nat) :=
  if l.take pre.length = pre then some (l.drop pre.length) else none

/-- Decode a decompressed envelope as the arms do: `read_until(0)`, drop
the delimiter, require UTF-8, strip `"<kind> "`, parse the decimal size,
then `read_exact` that many payload bytes (surplus bytes are ignored). -/
def readObject (kind : String) (bytes : List Nat) : Except ReadErr (List Nat) :=
  let p := readUntil0 bytes
  let read := p.1.length
  if read = 0 then .error .panicked
  else
    let header := p.1.take (read - 1)
    if validUtf8 header = false then .error .utf8Error
    else match stripPrefixBytes (strBytes (kind ++ " ")) header with
      | none => .error .badPrefix
      | some sizeB =>
        match parseUsize sizeB with
        | none => .error .badSize
        | some size =>
          if p.2.length < size then .error .eofPayload
          else .ok (p.2.take size)

/-! ## Lemmas about the stream reader -/

theorem readUntil0_length (s : List Nat) :
    (readUntil0 s).1.length + (readUntil0 s).2.length = s.length := by
  induction s with
  | nil => simp [readUntil0]
  | cons b rest ih =>
      by_cases hb : b = 0
      · subst hb
        have hr0 : readUntil0 (0 :: rest) = ([0], rest) := by simp [readUntil0]
        rw [hr0]
        show 1 + rest.length = rest.length + 1
        omega
      · have hr1 : readUntil0 (b :: rest) =
            (b :: (readUntil0 rest).1, (readUntil0 rest).2) := by
          simp [readUntil0, hb]
        rw [hr1]
        show (readUntil0 rest).1.length + 1 + (readUntil0 rest).2.length = rest.length + 1
        omega

theorem readUntil0_append (xs ys : List Nat) (hx : 0 ∉ xs) :
    readUntil0 (xs ++ 0 :: ys) = (xs ++ [0], ys) := by
  induction xs with
  | nil => simp [readUntil0]
  | cons b rest ih =>
      have hb : b ≠ 0 := fun h => hx (h ▸ List.mem_cons_self b rest)
      have hr : 0 ∉ rest := fun h => hx (List.mem_cons_of_mem b h)
      rw [List.cons_append]
      simp only [readUntil0, if_neg hb, ih hr]
      simp

theorem parseEntry_consumes (s : List Nat) (e : TreeEntryP) (c : Nat) (s' : List Nat)
    (h : parseEntry s = Except.ok (e, c, s')) : s.length = c + s'.length ∧ 0 < c := by
  have hlen := readUntil0_length s
  simp only [parseEntry] at h
  split at h
  · exact Except.noConfusion h
  · split at h
    · exact Except.noConfusion h
    · split at h
      · exact Except.noConfusion h
      · split at h
        · exact Except.noConfusion h
        · split at h
          · exact Except.noConfusion h
          · simp only [Except.ok.injEq, Prod.mk.injEq] at h
            obtain ⟨-, hc, hs⟩ := h
            subst hc
            subst hs
            have hdrop : ((readUntil0 s).2.drop 20).length =
                (readUntil0 s).2.length - 20 := List.length_drop 20 (readUntil0 s).2
            constructor
            · omega
            · omega

theorem lsLoop_consumes (fuel : Nat) :
    ∀ left s es rest, lsLoop fuel left s = Except.ok (es, rest) →
      s.length = left + rest.length := by
  induction fuel with
  | zero =>
      intro left s es rest h
      cases left with
      | zero =>
          simp only [lsLoop, Except.ok.injEq, Prod.mk.injEq] at h
          obtain ⟨-, hr⟩ := h
          subst hr
          simp
      | succ l => exact Except.noConfusion h
  | succ fuel ih =>
      intro left s es rest h
      cases left with
      | zero =>
          simp only [lsLoop, Except.ok.injEq, Prod.mk.injEq] at h
          obtain ⟨-, hr⟩ := h
          subst hr
          simp
      | succ l =>
          simp only [lsLoop] at h
          cases hpe : parseEntry s with
          | error e => rw [hpe] at h; exact Except.noConfusion h
          | ok val =>
              obtain ⟨entry, c, s'⟩ := val
              rw [hpe] at h
              replace h : (if l + 1 < c then
                    (Except.error LsErr.panicked : Except LsErr (List TreeEntryP × List Nat))
                  else match lsLoop fuel (l + 1 - c) s' with
                    | .error e => .error e
                    | .ok (es, rest) => .ok (entry :: es, rest)) = Except.ok (es, rest) := h
              by_cases hc : l + 1 < c
              · rw [if_pos hc] at h; exact Except.noConfusion h
              · rw [if_neg hc] at h
                cases hrec : lsLoop fuel (l + 1 - c) s' with
                | error e => rw [hrec] at h; exact Except.noConfusion h
                | ok pr =>
                    obtain ⟨es', rest'⟩ := pr
                    rw [hrec] at h
                    replace h : (Except.ok (entry :: es', rest') :
                        Except LsErr (List TreeEntryP × List Nat)) = Except.ok (es, rest) := h
                    simp only [Except.ok.injEq, Prod.mk.injEq] at h
                    obtain ⟨-, hr⟩ := h
                    subst hr
                    have h1 := parseEntry_consumes s entry c s' hpe
                    have h2 := ih (l + 1 - c) s' es' rest' hrec
                    omega

/-! ## Claim theorems -/

/-- C1: for kind `blob` and the 12-byte payload `hello world\n`,
`write_object` assembles exactly the envelope `blob 12\0hello world\n`,
and the identifier it returns — the SHA-1 of the whole envelope — has the
40-hex form `3b18e512dba79e4c8300dd08aeb37f8e728b8dad`; hashing the payload
alone would not produce this identifier. -/
theorem git_blob_known_vector :
    encodeObject "blob" (strBytes "hello world\n") =
      strBytes "blob 12" ++ [0] ++ strBytes "hello world\n" ∧
    hexChars (writeObjectHash "blob" (strBytes "hello world\n")) =
      "3b18e512dba79e4c8300dd08aeb37f8e728b8dad".data ∧
    hexChars (sha1 (strBytes "hello world\n")) ≠
      "3b18e512dba79e4c8300dd08aeb37f8e728b8dad".data := by
  refine ⟨by decide, by decide, by decide⟩

/-- C2: the ls-tree entry loop succeeds only when the cumulative bytes it
consumed (each entry's mode+name+NUL segment plus 20 identifier bytes)
equal the declared length `L` exactly: on success the stream shrank by
exactly `L`.  Consequently a stream that runs out before `L` bytes, as well
as an entry overshooting `L`, can only end in a failure outcome (an error
or the debug-build underflow panic), never in a short entry list. -/
theorem ls_tree_exact_consumption (L : Nat) (s : List Nat) (es : List TreeEntryP)
    (rest : List Nat) (h : lsTreeParse L s = Except.ok (es, rest)) :
    s.length = L + rest.length :=
  lsLoop_consumes L L s es rest h

/-- Witness for C2: a one-entry payload of declared length 33 parses
successfully and indeed consumed exactly 33 bytes. -/
theorem ls_tree_exact_consumption_witness :
    lsTreeParse 33 (strBytes "100644 b.txt" ++ 0 :: List.replicate 20 7) =
      Except.ok ([⟨33188, strBytes "b.txt", List.replicate 20 7⟩], []) ∧
    (strBytes "100644 b.txt" ++ 0 :: List.replicate 20 7).length =
      33 + ([] : List Nat).length :=
  ⟨by rfl,
   ls_tree_exact_consumption 33 (strBytes "100644 b.txt" ++ 0 :: List.replicate 20 7)
     [⟨33188, strBytes "b.txt", List.replicate 20 7⟩] [] (by rfl)⟩

/-! ## Lemmas about `hex::decode` -/

theorem hexDecode_length : ∀ (s : List Char) (bytes : List Nat),
    hexDecode s = some bytes → 2 * bytes.length = s.length
  | [], bytes => by
      intro h
      simp only [hexDecode, Option.some.injEq] at h
      subst h
      rfl
  | [c], bytes => by
      intro h
      exact Option.noConfusion h
  | hi :: lo :: rest, bytes => by
      intro h
      simp only [hexDecode] at h
      split at h
      · cases hr : hexDecode rest with
        | none => rw [hr] at h; exact Option.noConfusion h
        | some bs =>
            rw [hr] at h
            simp only [Option.map_some', Option.some.injEq] at h
            subst h
            have ih := hexDecode_length rest bs hr
            simp only [List.length_cons]
            omega
      · exact Option.noConfusion h

theorem hexDecode_ok_of_hex : ∀ s : List Char, s.length % 2 = 0 →
    (∀ c ∈ s, isHexDigitB c = true) → ∃ bs, hexDecode s = some bs
  | [] => fun _ _ => ⟨[], rfl⟩
  | [c] => by intro h _; simp at h
  | hi :: lo :: rest => by
      intro hmod hhex
      have h1 : isHexDigitB hi = true := hhex hi (by simp)
      have h2 : isHexDigitB lo = true := hhex lo (by simp)
      have hmod' : rest.length % 2 = 0 := by
        simp only [List.length_cons] at hmod
        omega
      obtain ⟨bs, hbs⟩ := hexDecode_ok_of_hex rest hmod' fun c hc => hhex c (by simp [hc])
      refine ⟨(hexVal hi * 16 + hexVal lo) :: bs, ?_⟩
      simp [hexDecode, h1, h2, hbs]

theorem hexDecode_fail : ∀ s : List Char,
    (s.length % 2 = 1 ∨ ∃ c ∈ s, isHexDigitB c = false) → hexDecode s = none
  | [] => by
      rintro (h | ⟨c, hc, -⟩)
      · simp at h
      · simp at hc
  | [c] => fun _ => rfl
  | hi :: lo :: rest => by
      rintro (h | ⟨c, hc, hcbad⟩)
      · have h' : rest.length % 2 = 1 := by
          simp only [List.length_cons] at h
          omega
        have := hexDecode_fail rest (Or.inl h')
        simp only [hexDecode]
        split
        · simp [this]
        · rfl
      · rcases List.mem_cons.mp hc with rfl | hc'
        · simp [hexDecode, hcbad]
        · rcases List.mem_cons.mp hc' with rfl | hc''
          · simp only [hexDecode]
            split
            · rename_i hcond
              simp only [Bool.and_eq_true] at hcond
              rw [hcbad] at hcond
              exact absurd hcond.2 (by simp)
            · rfl
          · have := hexDecode_fail rest (Or.inr ⟨c, hc'', hcbad⟩)
            simp only [hexDecode]
            split
            · simp [this]
            · rfl

/-- C3 counterexample: the two-character text `ab` is not 40 hex characters,
yet `Sha1Hash::from_str` does not return a format error on it — `hex::decode`
succeeds with one byte and `copy_from_slice` panics on the length mismatch. -/
theorem sha1_from_str_short_hex_panics :
    sha1FromStr "ab".data = HexOutcome.panicked ∧
    HexOutcome.panicked ≠ HexOutcome.formatError ∧
    "ab".data.length ≠ 40 := by
  refine ⟨by rfl, by decide, by decide⟩

/-- C3 (amended): identifier text that is not exactly 40 hex characters never
parses successfully: text of odd length or with a non-hex character yields the
`hex::decode` format error, while well-formed hex of any other length panics
in `copy_from_slice`; in every such case the `cat-file` and `ls-tree` arms
open no object path, and the `commit-tree` arm writes no object. -/
theorem sha1_from_str_rejects_non40 (s : List Char) :
    (s.length ≠ 40 → ∀ h, sha1FromStr s ≠ HexOutcome.ok h) ∧
    (s.length % 2 = 1 ∨ (∃ c ∈ s, isHexDigitB c = false) →
      sha1FromStr s = HexOutcome.formatError) ∧
    (s.length % 2 = 0 → (∀ c ∈ s, isHexDigitB c = true) → s.length ≠ 40 →
      sha1FromStr s = HexOutcome.panicked) ∧
    (s.length ≠ 40 → catFileOpens s = [] ∧ lsTreeOpens s = [] ∧
      ∀ p m, commitTreeWrites s p m = []) := by
  have hok : ∀ h, sha1FromStr s = HexOutcome.ok h → s.length = 40 := by
    intro h hfs
    simp only [sha1FromStr] at hfs
    cases hd : hexDecode s with
    | none => rw [hd] at hfs; exact HexOutcome.noConfusion hfs
    | some bytes =>
        rw [hd] at hfs
        replace hfs : (if bytes.length = 20 then HexOutcome.ok bytes
            else HexOutcome.panicked) = HexOutcome.ok h := hfs
        have hl := hexDecode_length s bytes hd
        by_cases h20 : bytes.length = 20
        · omega
        · rw [if_neg h20] at hfs
          exact HexOutcome.noConfusion hfs
  refine ⟨fun h40 h hfs => h40 (hok h hfs), ?_, ?_, ?_⟩
  · intro hbad
    simp only [sha1FromStr, hexDecode_fail s hbad]
  · intro heven hhex h40
    obtain ⟨bs, hbs⟩ := hexDecode_ok_of_hex s heven hhex
    have hl := hexDecode_length s bs hbs
    simp only [sha1FromStr, hbs]
    rw [if_neg (by omega : ¬bs.length = 20)]
  · intro h40
    refine ⟨?_, ?_, ?_⟩
    · simp only [catFileOpens]
      cases hfs : sha1FromStr s with
      | ok h => exact absurd (hok h hfs) h40
      | formatError => rfl
      | panicked => rfl
    · simp only [lsTreeOpens]
      cases hfs : sha1FromStr s with
      | ok h => exact absurd (hok h hfs) h40
      | formatError => rfl
      | panicked => rfl
    · intro p m
      simp only [commitTreeWrites]
      cases hfs : sha1FromStr s with
      | ok h => exact absurd (hok h hfs) h40
      | formatError => rfl
      | panicked => rfl

/-- Witness for C3 (amended): the three-character text `abc` is rejected with
a format error and leads to no object-path access in any arm. -/
theorem sha1_from_str_rejects_non40_witness :
    sha1FromStr "abc".data = HexOutcome.formatError ∧
    catFileOpens "abc".data = [] ∧ lsTreeOpens "abc".data = [] ∧
    commitTreeWrites "abc".data none "m" = [] :=
  ⟨(sha1_from_str_rejects_non40 "abc".data).2.1 (Or.inl (by decide)),
   ((sha1_from_str_rejects_non40 "abc".data).2.2.2 (by decide)).1,
   ((sha1_from_str_rejects_non40 "abc".data).2.2.2 (by decide)).2.1,
   ((sha1_from_str_rejects_non40 "abc".data).2.2.2 (by decide)).2.2 none "m"⟩

/-! ## Lemmas about decimal rendering and parsing -/

theorem decDigits_mem (fuel : Nat) :
    ∀ n b, b ∈ decDigits fuel n → 48 ≤ b ∧ b ≤ 57 := by
  induction fuel with
  | zero =>
      intro n b hb
      simp [decDigits] at hb
  | succ fuel ih =>
      intro n b hb
      simp only [decDigits] at hb
      by_cases hn : n < 10
      · rw [if_pos hn] at hb
        simp only [List.mem_singleton] at hb
        omega
      · rw [if_neg hn] at hb
        rcases List.mem_append.mp hb with h | h
        · exact ih _ _ h
        · simp only [List.mem_singleton] at h
          have hm : n % 10 < 10 := Nat.mod_lt n (by norm_num)
          omega

theorem decDigits_ne_nil (fuel n : Nat) (hf : 0 < fuel) : decDigits fuel n ≠ [] := by
  cases fuel with
  | zero => omega
  | succ f =>
      simp only [decDigits]
      split
      · simp
      · simp

theorem parseRadixCore_append (base : Nat) :
    ∀ (l1 l2 : List Nat) (acc : Nat),
      parseRadixCore base (l1 ++ l2) acc =
        match parseRadixCore base l1 acc with
        | some a => parseRadixCore base l2 a
        | none => none := by
  intro l1
  induction l1 with
  | nil => intro l2 acc; rfl
  | cons d rest ih =>
      intro l2 acc
      simp only [List.cons_append, parseRadixCore]
      split
      · exact ih l2 _
      · rfl

theorem parseRadixCore_decDigits (fuel : Nat) :
    ∀ n acc, n < fuel →
      parseRadixCore 10 (decDigits fuel n) acc =
        some (acc * 10 ^ (decDigits fuel n).length + n) := by
  induction fuel with
  | zero => intro n acc h; omega
  | succ fuel ih =>
      intro n acc h
      by_cases hn : n < 10
      · simp only [decDigits, if_pos hn, parseRadixCore]
        rw [if_pos (by omega : 48 ≤ 48 + n ∧ 48 + n < 48 + 10)]
        simp only [parseRadixCore, List.length_singleton, pow_one, Option.some.injEq]
        omega
      · simp only [decDigits, if_neg hn]
        rw [parseRadixCore_append]
        have hd : n / 10 < fuel := by omega
        rw [ih (n / 10) acc hd]
        have hm : n % 10 < 10 := Nat.mod_lt n (by norm_num)
        simp only [parseRadixCore]
        rw [if_pos (by omega : 48 ≤ 48 + n % 10 ∧ 48 + n % 10 < 48 + 10)]
        simp only [parseRadixCore, List.length_append, List.length_singleton,
          Option.some.injEq]
        have hdm := Nat.div_add_mod n 10
        have e1 : 48 + n % 10 - 48 = n % 10 := by omega
        rw [e1, pow_succ, ← Nat.mul_assoc]
        generalize acc * 10 ^ (decDigits fuel (n / 10)).length = A
        omega

theorem parseUsize_natDecBytes (n : Nat) (h : n < 2 ^ 64) :
    parseUsize (natDecBytes n) = some n := by
  have hcore := parseRadixCore_decDigits (n + 1) n 0 (by omega)
  show parseUsize (decDigits (n + 1) n) = some n
  cases hd : decDigits (n + 1) n with
  | nil => exact absurd hd (decDigits_ne_nil (n + 1) n (by omega))
  | cons d rest =>
      have hdig : 48 ≤ d ∧ d ≤ 57 :=
        decDigits_mem (n + 1) n d (hd ▸ List.mem_cons_self d rest)
      rw [hd] at hcore
      simp only [parseUsize, List.head?_cons]
      rw [if_neg (by simp only [Option.some.injEq]; omega)]
      simp only [parseRadix, List.isEmpty_cons, Bool.false_eq_true, if_false]
      simp only [hcore, zero_mul, zero_add]
      rw [if_pos h]

/-! ## ASCII byte lists are valid UTF-8 -/

theorem utf8Scan_ascii : ∀ l : List Nat, (∀ b ∈ l, b < 128) → utf8Scan [] l = true := by
  intro l
  induction l with
  | nil => intro _; rfl
  | cons b rest ih =>
      intro hb
      have hb0 : b < 128 := hb b (List.mem_cons_self b rest)
      have : utf8Scan [] (b :: rest) = utf8Scan [] rest := by
        simp [utf8Scan, hb0]
      rw [this]
      exact ih fun x hx => hb x (List.mem_cons_of_mem b hx)

theorem strBytes_append (a b : String) : strBytes (a ++ b) = strBytes a ++ strBytes b := by
  simp [strBytes, String.data_append]

theorem stripPrefixBytes_append (pre l : List Nat) :
    stripPrefixBytes pre (pre ++ l) = some l := by
  simp [stripPrefixBytes, List.take_left, List.drop_left]

/-! ## The envelope decodes back to the payload -/

/-- Decoding a stream that starts with a well-formed `"<kind> <n>\0"` header
succeeds with the first `n` following bytes, and fails with `eofPayload`
when fewer than `n` bytes follow the header. -/
theorem readObject_header (kind : String) (n : Nat) (rest : List Nat)
    (hk : ∀ b ∈ strBytes kind, 0 < b ∧ b < 128) (hn : n < 2 ^ 64) :
    readObject kind ((strBytes kind ++ [32] ++ natDecBytes n) ++ 0 :: rest) =
      if rest.length < n then Except.error ReadErr.eofPayload
      else Except.ok (rest.take n) := by
  set hdr := strBytes kind ++ [32] ++ natDecBytes n with hhdr
  have hdig : ∀ b ∈ natDecBytes n, 48 ≤ b ∧ b ≤ 57 :=
    fun b hb => decDigits_mem (n + 1) n b hb
  have hmem : ∀ b ∈ hdr, 0 < b ∧ b < 128 := by
    intro b hb
    rw [hhdr] at hb
    rcases List.mem_append.mp hb with h | h
    · rcases List.mem_append.mp h with h' | h'
      · exact hk b h'
      · simp only [List.mem_singleton] at h'
        omega
    · have := hdig b h
      omega
  have h0 : (0 : Nat) ∉ hdr := fun h => by have := hmem 0 h; omega
  have hru : readUntil0 (hdr ++ 0 :: rest) = (hdr ++ [0], rest) :=
    readUntil0_append hdr rest h0
  simp only [readObject, hru]
  rw [if_neg (by simp)]
  have htake : (hdr ++ [0]).take ((hdr ++ [0]).length - 1) = hdr := by
    have : (hdr ++ [0]).length - 1 = hdr.length := by simp
    rw [this]
    exact List.take_left hdr [0]
  rw [htake]
  rw [if_neg (by simp [validUtf8, utf8Scan_ascii hdr fun b hb => (hmem b hb).2])]
  have hpre : strBytes (kind ++ " ") = strBytes kind ++ [32] := by
    rw [strBytes_append]
    rfl
  have hsplit : stripPrefixBytes (strBytes (kind ++ " ")) hdr =
      some (natDecBytes n) := by
    rw [hpre, hhdr]
    exact stripPrefixBytes_append (strBytes kind ++ [32]) (natDecBytes n)
  simp only [hsplit, parseUsize_natDecBytes n hn]

theorem readObject_encode (kind : String) (payload : List Nat)
    (hk : ∀ b ∈ strBytes kind, 0 < b ∧ b < 128) (hlen : payload.length < 2 ^ 64) :
    readObject kind (encodeObject kind payload) = Except.ok payload := by
  have henv : encodeObject kind payload =
      (strBytes kind ++ [32] ++ natDecBytes payload.length) ++ 0 :: payload := by
    simp [encodeObject]
  rw [henv, readObject_header kind payload.length payload hk hlen,
      if_neg (lt_irrefl payload.length), List.take_length]

/-- Decoding the compression of a proper prefix of the envelope that still
covers the header fails with a truncation error: the declared length exceeds
the bytes that follow. -/
theorem readObject_truncated (kind : String) (payload : List Nat) (k : Nat)
    (hk : ∀ b ∈ strBytes kind, 0 < b ∧ b < 128) (hlen : payload.length < 2 ^ 64)
    (hlo : (strBytes kind).length + 1 + (natDecBytes payload.length).length + 1 ≤ k)
    (hhi : k < (encodeObject kind payload).length) :
    readObject kind ((encodeObject kind payload).take k) =
      Except.error ReadErr.eofPayload := by
  have hdl : (strBytes kind ++ [32] ++ natDecBytes payload.length).length =
      (strBytes kind).length + 1 + (natDecBytes payload.length).length := by
    simp only [List.length_append, List.length_singleton]
  have henvlen : (encodeObject kind payload).length =
      (strBytes kind).length + 1 + (natDecBytes payload.length).length + 1 +
        payload.length := by
    simp only [encodeObject, List.length_append, List.length_singleton]
  have henv : encodeObject kind payload =
      (strBytes kind ++ [32] ++ natDecBytes payload.length) ++ 0 :: payload := by
    simp [encodeObject]
  have htk : (encodeObject kind payload).take k =
      (strBytes kind ++ [32] ++ natDecBytes payload.length) ++
        0 :: payload.take
          (k - (strBytes kind ++ [32] ++ natDecBytes payload.length).length - 1) := by
    rw [henv, List.take_append_eq_append_take,
        List.take_of_length_le (by omega :
          (strBytes kind ++ [32] ++ natDecBytes payload.length).length ≤ k)]
    congr 1
    obtain ⟨m, hm⟩ : ∃ m,
        k - (strBytes kind ++ [32] ++ natDecBytes payload.length).length = m + 1 :=
      ⟨k - (strBytes kind ++ [32] ++ natDecBytes payload.length).length - 1, by omega⟩
    rw [hm]
    simp
  have hlt : (payload.take
      (k - (strBytes kind ++ [32] ++ natDecBytes payload.length).length - 1)).length <
      payload.length := by
    rw [List.length_take]
    omega
  have hres := readObject_header kind payload.length
    (payload.take (k - (strBytes kind ++ [32] ++ natDecBytes payload.length).length - 1))
    hk hlen
  rw [if_pos hlt] at hres
  rw [htk]
  exact hres

/-- C4 (code bug): `write_object` issues a single `file.write(&buf)` on the
encoder and discards the consumed-byte count, so the bytes persisted at the
canonical path are the compression of only the prefix of the envelope that
this one call consumed.  When the call consumes the whole envelope, the
stored object decodes back to the payload; but whenever it consumes a proper
prefix that still covers the header — as `Write::write` permits and as
happens for large payloads — the stored stream is a finalized compression of
a truncated envelope whose decoding fails with a truncation error, so the
claimed universal round trip does not hold of the code (`write_all` would be
needed).  The compressor is abstracted by any lossless
`compress`/`decompress` pair. -/
theorem object_partial_write_truncates (kind : String) (payload : List Nat)
    (compress decompress : List Nat → List Nat) (writeCount : List Nat → Nat)
    (fs : FsState)
    (hkind : kind = "blob" ∨ kind = "tree" ∨ kind = "commit")
    (hlen : payload.length < 2 ^ 64)
    (hinv : ∀ b, decompress (compress b) = b) :
    lookupFile (filenameFromSha (writeObjectHash kind payload))
        ((writeObjectFS kind payload true compress writeCount fs).2).files =
      some (compress ((encodeObject kind payload).take
        (writeCount (encodeObject kind payload)))) ∧
    (writeCount (encodeObject kind payload) = (encodeObject kind payload).length →
      readObject kind (decompress (compress ((encodeObject kind payload).take
        (writeCount (encodeObject kind payload))))) = Except.ok payload) ∧
    ∀ k, (strBytes kind).length + 1 + (natDecBytes payload.length).length + 1 ≤ k →
      k < (encodeObject kind payload).length →
      readObject kind (decompress (compress ((encodeObject kind payload).take k))) =
        Except.error ReadErr.eofPayload := by
  have hk : ∀ b ∈ strBytes kind, 0 < b ∧ b < 128 := by
    rcases hkind with h | h | h <;> subst h <;> decide
  refine ⟨?_, ?_, ?_⟩
  · simp only [writeObjectFS, writeObjectHash, if_true, lookupFile, if_pos rfl]
  · intro hfull
    rw [hinv, hfull, List.take_length]
    exact readObject_encode kind payload hk hlen
  · intro k hlo hhi
    rw [hinv]
    exact readObject_truncated kind payload k hk hlen hlo hhi

/-- Witness for C4: at kind `blob` and payload `hi` (9-byte envelope), with
the identity compressor pair and a write call that consumes only 8 bytes,
the stored bytes are the compression of that 8-byte prefix and reading the
object back fails with the truncation error. -/
theorem object_partial_write_truncates_witness :
    lookupFile (filenameFromSha (writeObjectHash "blob" (strBytes "hi")))
        ((writeObjectFS "blob" (strBytes "hi") true (fun b => b) (fun _ => 8)
          ⟨[], []⟩).2).files =
      some ((fun b => b) ((encodeObject "blob" (strBytes "hi")).take
        ((fun _ => 8) (encodeObject "blob" (strBytes "hi"))))) ∧
    readObject "blob"
        ((fun b => b) ((fun b => b) ((encodeObject "blob" (strBytes "hi")).take 8))) =
      Except.error ReadErr.eofPayload :=
  ⟨(object_partial_write_truncates "blob" (strBytes "hi") (fun b => b) (fun b => b)
      (fun _ => 8) ⟨[], []⟩ (Or.inl rfl) (by decide) (fun b => rfl)).1,
   (object_partial_write_truncates "blob" (strBytes "hi") (fun b => b) (fun b => b)
      (fun _ => 8) ⟨[], []⟩ (Or.inl rfl) (by decide) (fun b => rfl)).2.2 8
     (by decide) (by decide)⟩

/-! ## Lemmas about the byte-wise name order used by `write_tree` -/

theorem lexLe_cons_iff (x y : Nat) (xs ys : List Nat) :
    lexLe (x :: xs) (y :: ys) = true ↔ (x < y ∨ (x = y ∧ lexLe xs ys = true)) := by
  simp only [lexLe]
  by_cases hxy : x < y
  · simp [hxy]
  · by_cases hyx : y < x
    · rw [if_neg hxy, if_pos hyx]
      constructor
      · intro h
        exact Bool.noConfusion h
      · rintro (h | ⟨he, -⟩) <;> omega
    · have hxe : x = y := by omega
      rw [if_neg hxy, if_neg hyx]
      constructor
      · intro h
        exact Or.inr ⟨hxe, h⟩
      · rintro (h | ⟨-, h⟩)
        · omega
        · exact h

theorem lexLe_total : ∀ a b : List Nat, lexLe a b = true ∨ lexLe b a = true
  | [], _ => Or.inl rfl
  | _ :: _, [] => Or.inr rfl
  | x :: xs, y :: ys => by
      rcases Nat.lt_trichotomy x y with h | h | h
      · left
        rw [lexLe_cons_iff]
        exact Or.inl h
      · subst h
        rcases lexLe_total xs ys with hh | hh
        · left
          rw [lexLe_cons_iff]
          exact Or.inr ⟨rfl, hh⟩
        · right
          rw [lexLe_cons_iff]
          exact Or.inr ⟨rfl, hh⟩
      · right
        rw [lexLe_cons_iff]
        exact Or.inl h

theorem lexLe_antisymm : ∀ a b : List Nat, lexLe a b = true → lexLe b a = true → a = b
  | [], [] => fun _ _ => rfl
  | [], _ :: _ => fun _ h => by simp [lexLe] at h
  | _ :: _, [] => fun h _ => by simp [lexLe] at h
  | x :: xs, y :: ys => fun h1 h2 => by
      rw [lexLe_cons_iff] at h1 h2
      rcases h1 with h1 | ⟨hxy, h1⟩
      · rcases h2 with h2 | ⟨hyx, h2⟩
        · exfalso
          omega
        · exfalso
          omega
      · rcases h2 with h2 | ⟨hyx, h2⟩
        · exfalso
          omega
        · rw [hxy, lexLe_antisymm xs ys h1 h2]

theorem lexLe_trans : ∀ a b c : List Nat,
    lexLe a b = true → lexLe b c = true → lexLe a c = true
  | [], _, _ => fun _ _ => rfl
  | _ :: _, [], _ => fun h _ => by simp [lexLe] at h
  | _ :: _, _ :: _, [] => fun _ h => by simp [lexLe] at h
  | x :: xs, y :: ys, z :: zs => fun h1 h2 => by
      rw [lexLe_cons_iff] at h1 h2 ⊢
      rcases h1 with h1 | ⟨hxy, h1⟩
      · rcases h2 with h2 | ⟨hyz, h2⟩
        · exact Or.inl (by omega)
        · exact Or.inl (by omega)
      · rcases h2 with h2 | ⟨hyz, h2⟩
        · exact Or.inl (by omega)
        · exact Or.inr ⟨by omega, lexLe_trans xs ys zs h1 h2⟩

/-- Sorting the collected entries gives the same list for any enumeration
order, provided no two entries share a name. -/
theorem sortEntries_perm_eq (l₁ l₂ : List TreeEntryP) (hp : l₁.Perm l₂)
    (hd : l₁.Pairwise fun a b => a.name ≠ b.name) : sortEntries l₁ = sortEntries l₂ := by
  have hle : ∀ a b : TreeEntryP,
      (lexLe a.name b.name || lexLe b.name a.name) = true := by
    intro a b
    rcases lexLe_total a.name b.name with h | h <;> simp [h]
  have htr : ∀ a b c : TreeEntryP, lexLe a.name b.name = true →
      lexLe b.name c.name = true → lexLe a.name c.name = true :=
    fun a b c h1 h2 => lexLe_trans _ _ _ h1 h2
  have hsymm : ∀ {x y : TreeEntryP}, x.name ≠ y.name → y.name ≠ x.name :=
    fun h he => h he.symm
  have hperm₁ : (sortEntries l₁).Perm l₁ := List.mergeSort_perm l₁ _
  have hperm₂ : (sortEntries l₂).Perm l₂ := List.mergeSort_perm l₂ _
  have hperm : (sortEntries l₁).Perm (sortEntries l₂) :=
    hperm₁.trans (hp.trans hperm₂.symm)
  have hs₁ : (sortEntries l₁).Pairwise fun a b => lexLe a.name b.name = true :=
    List.sorted_mergeSort htr hle l₁
  have hs₂ : (sortEntries l₂).Pairwise fun a b => lexLe a.name b.name = true :=
    List.sorted_mergeSort htr hle l₂
  have hd₁ : (sortEntries l₁).Pairwise fun a b => a.name ≠ b.name :=
    (List.Perm.pairwise_iff hsymm hperm₁).mpr hd
  have hd₂ : (sortEntries l₂).Pairwise fun a b => a.name ≠ b.name :=
    (List.Perm.pairwise_iff hsymm (hp.trans hperm₂.symm)).mp hd
  letI : IsAntisymm TreeEntryP
      (fun a b => lexLe a.name b.name = true ∧ a.name ≠ b.name) :=
    ⟨fun a b hab hba => absurd (lexLe_antisymm _ _ hab.1 hba.1) hab.2⟩
  exact List.eq_of_perm_of_sorted hperm (hs₁.and hd₁) (hs₂.and hd₂)

/-- C5: for any set of entries with pairwise distinct names, the tree payload
`write_tree` serializes — and hence the resulting tree identifier — is the
same for every filesystem enumeration order: any permutation of the collected
entries yields an identical payload and identifier, because the entries are
sorted by strict byte-wise name comparison before serialization. -/
theorem tree_payload_enumeration_invariant (l₁ l₂ : List TreeEntryP)
    (hp : l₁.Perm l₂) (hd : l₁.Pairwise fun a b => a.name ≠ b.name) :
    treePayload l₁ = treePayload l₂ ∧ writeTreeHash l₁ = writeTreeHash l₂ := by
  have hs := sortEntries_perm_eq l₁ l₂ hp hd
  constructor
  · simp only [treePayload, hs]
  · simp only [writeTreeHash, treePayload, hs]

/-- Witness for C5: two enumeration orders of the same two entries produce
the same payload and tree identifier. -/
theorem tree_payload_enumeration_invariant_witness :
    treePayload [⟨33188, strBytes "b", List.replicate 20 1⟩,
        ⟨33188, strBytes "a", List.replicate 20 2⟩] =
      treePayload [⟨33188, strBytes "a", List.replicate 20 2⟩,
        ⟨33188, strBytes "b", List.replicate 20 1⟩] ∧
    writeTreeHash [⟨33188, strBytes "b", List.replicate 20 1⟩,
        ⟨33188, strBytes "a", List.replicate 20 2⟩] =
      writeTreeHash [⟨33188, strBytes "a", List.replicate 20 2⟩,
        ⟨33188, strBytes "b", List.replicate 20 1⟩] :=
  tree_payload_enumeration_invariant
    [⟨33188, strBytes "b", List.replicate 20 1⟩, ⟨33188, strBytes "a", List.replicate 20 2⟩]
    [⟨33188, strBytes "a", List.replicate 20 2⟩, ⟨33188, strBytes "b", List.replicate 20 1⟩]
    (List.Perm.swap (⟨33188, strBytes "a", List.replicate 20 2⟩ : TreeEntryP)
      (⟨33188, strBytes "b", List.replicate 20 1⟩ : TreeEntryP) [])
    (by decide)

/-- One-step unfolding of the entry loop. -/
theorem lsLoop_succ (fuel left : Nat) (s : List Nat) :
    lsLoop (fuel + 1) (left + 1) s =
      match parseEntry s with
      | .error e => .error e
      | .ok (entry, c, s') =>
          if left + 1 < c then .error .panicked
          else match lsLoop fuel (left + 1 - c) s' with
            | .error e => .error e
            | .ok (es, rest) => .ok (entry :: es, rest) := rfl

/-- Parsing one entry `100644 a.txt` followed by any 20 identifier bytes. -/
theorem parseEntry_single (H : List Nat) (hH : H.length = 20) :
    parseEntry (strBytes "100644 a.txt" ++ 0 :: H) =
      Except.ok (⟨33188, strBytes "a.txt", H⟩, 33, []) := by
  have h0 : (0 : Nat) ∉ strBytes "100644 a.txt" := by decide
  have hru := readUntil0_append (strBytes "100644 a.txt") H h0
  have hc1 : ((strBytes "100644 a.txt" ++ [0]).length = 0) = False :=
    eq_false (by decide)
  have hc2 : (validUtf8 ((strBytes "100644 a.txt" ++ [0]).take
      ((strBytes "100644 a.txt" ++ [0]).length - 1)) = false) = False :=
    eq_false (by decide)
  have hsp : splitOnceSpace ((strBytes "100644 a.txt" ++ [0]).take
      ((strBytes "100644 a.txt" ++ [0]).length - 1)) =
      some (strBytes "100644", strBytes "a.txt") := by decide
  have hoct : parseOctU32 (strBytes "100644") = some 33188 := by decide
  have hc3 : (H.length < 20) = False := eq_false (by omega)
  have ht : H.take 20 = H := by
    rw [← hH]
    exact List.take_length H
  have hds : H.drop 20 = [] := by
    rw [← hH]
    exact List.drop_length H
  have hl : (strBytes "100644 a.txt" ++ [0]).length + 20 = 33 := by decide
  simp only [parseEntry, hru, hc1, hc2, hsp, hoct, hc3, ht, hds, hl, if_false]

/-- C6 counterexample: on the single-entry tree payload with mode `100644`,
name `a.txt` and a concrete identifier, the non-name-only line renders as
`100644 blob a.txt <hex id>` — name before identifier — and is not the
claimed `100644 blob <hex id> a.txt` ordering. -/
theorem ls_tree_line_order_counterexample :
    lsTreeParse 33 (strBytes "100644 a.txt" ++ 0 :: List.range 20) =
      Except.ok ([⟨33188, strBytes "a.txt", List.range 20⟩], []) ∧
    renderEntries false [⟨33188, strBytes "a.txt", List.range 20⟩] =
      [strBytes "100644 blob a.txt " ++ hexBytes (List.range 20)] ∧
    renderEntries false [⟨33188, strBytes "a.txt", List.range 20⟩] ≠
      [strBytes "100644 blob " ++ hexBytes (List.range 20) ++ strBytes " a.txt"] := by
  refine ⟨by rfl, by rfl, by decide⟩

/-- C6 (amended): for a tree payload with exactly one entry of mode `100644`,
name `a.txt` and identifier `H`, ls-tree parses exactly that entry and prints
one line `100644 blob a.txt <hex H>` — mode, kind label, name, then
identifier — without `--name-only`, and exactly `a.txt` with it. -/
theorem ls_tree_single_entry_render (H : List Nat) (hH : H.length = 20) :
    lsTreeParse 33 (strBytes "100644 a.txt" ++ 0 :: H) =
      Except.ok ([⟨33188, strBytes "a.txt", H⟩], []) ∧
    renderEntries false [⟨33188, strBytes "a.txt", H⟩] =
      [strBytes "100644 blob a.txt " ++ hexBytes H] ∧
    renderEntries true [⟨33188, strBytes "a.txt", H⟩] = [strBytes "a.txt"] := by
  refine ⟨?_, ?_, by rfl⟩
  · have hp := parseEntry_single H hH
    show lsLoop (32 + 1) (32 + 1) (strBytes "100644 a.txt" ++ 0 :: H) =
      Except.ok ([⟨33188, strBytes "a.txt", H⟩], [])
    rw [lsLoop_succ]
    have hq : (32 + 1 < 33) = False := eq_false (by omega)
    have hz : lsLoop 32 (32 + 1 - 33) ([] : List Nat) = Except.ok ([], []) := rfl
    simp only [hp, hq, if_false, hz]
  · show [renderEntry false ⟨33188, strBytes "a.txt", H⟩] =
      [strBytes "100644 blob a.txt " ++ hexBytes H]
    have hr : renderEntry false ⟨33188, strBytes "a.txt", H⟩ =
        strBytes "100644 blob a.txt " ++ hexBytes H := by
      show natOct6 33188 ++ strBytes " blob " ++ strBytes "a.txt" ++ [32] ++ hexBytes H =
        strBytes "100644 blob a.txt " ++ hexBytes H
      exact congrArg (fun l => l ++ hexBytes H) (by decide)
    rw [hr]

/-- Witness for C6 (amended): the theorem applied at the concrete identifier
whose twenty bytes are all `9`. -/
theorem ls_tree_single_entry_render_witness :
    lsTreeParse 33 (strBytes "100644 a.txt" ++ 0 :: List.replicate 20 9) =
      Except.ok ([⟨33188, strBytes "a.txt", List.replicate 20 9⟩], []) ∧
    renderEntries true [⟨33188, strBytes "a.txt", List.replicate 20 9⟩] =
      [strBytes "a.txt"] :=
  ⟨(ls_tree_single_entry_render (List.replicate 20 9) (by decide)).1,
   (ls_tree_single_entry_render (List.replicate 20 9) (by decide)).2.2⟩

/-- C7 counterexample: a child named `.a` does not start with the reserved
metadata directory name `.git`, yet `write_tree` excludes it — the code
skips every child whose name starts with `.`, not only names starting with
the store's own directory name. -/
theorem dot_child_excluded_counterexample :
    dirEntries [⟨".a", false⟩] (fun _ => List.replicate 20 0) = [] ∧
    startsWithStr ".git" ".a" = false ∧
    startsWithStr "." ".a" = true := by
  refine ⟨by rfl, by rfl, by rfl⟩

/-- C7 (amended): a child enumerated by `write_tree` contributes a tree entry
if and only if its name does not start with `.` (the leading character of the
metadata directory name); an included child appears with mode `0o40000` for a
directory and `0o100644` for a file, named by its final name component. -/
theorem write_tree_dot_exclusion (children : List DirChild) (f : DirChild → List Nat)
    (e : TreeEntryP) :
    e ∈ dirEntries children f ↔
      ∃ c, c ∈ children ∧ startsWithStr "." c.name = false ∧
        e = ⟨if c.isDir then 16384 else 33188, strBytes c.name, f c⟩ := by
  simp only [dirEntries, List.mem_filterMap]
  constructor
  · rintro ⟨c, hc, hsome⟩
    cases hB : startsWithStr "." c.name with
    | true => rw [if_pos hB] at hsome; exact Option.noConfusion hsome
    | false =>
        rw [if_neg (by simp [hB])] at hsome
        exact ⟨c, hc, hB, ((Option.some.injEq ..).mp hsome).symm⟩
  · rintro ⟨c, hc, hB, he⟩
    refine ⟨c, hc, ?_⟩
    rw [if_neg (by simp [hB]), he]

/-- C8: the commit payload consists of, in order: a `tree <id>` line; a
`parent <id>` line present exactly when a parent was supplied, immediately
after the tree line; the author line; the committer line in the same form; a
blank line; the message text; and a trailing newline. -/
theorem commit_payload_layout (t q : List Char) (m : String) :
    commitPayloadChars t none m =
      ("tree ".data ++ t ++ ['\n']) ++
      ("author Noname <noreply@noname.com> 1709990458 +0200".data ++ ['\n']) ++
      ("committer Noname <noreply@noname.com> 1709990458 +0200".data ++ ['\n']) ++
      ['\n'] ++ m.data ++ ['\n'] ∧
    commitPayloadChars t (some q) m =
      ("tree ".data ++ t ++ ['\n']) ++
      ("parent ".data ++ q ++ ['\n']) ++
      ("author Noname <noreply@noname.com> 1709990458 +0200".data ++ ['\n']) ++
      ("committer Noname <noreply@noname.com> 1709990458 +0200".data ++ ['\n']) ++
      ['\n'] ++ m.data ++ ['\n'] := by
  constructor <;> simp [commitPayloadChars, wline]

/-- C9: whatever the tree identifier, parent and message, the author and
committer lines of the composed commit are the fixed constant strings with
name `Noname`, address `noreply@noname.com`, timestamp `1709990458` and zone
`+0200`; consequently the commit identifier is a pure function of the tree,
parent and message — two compositions with equal inputs hash identically. -/
theorem commit_fixed_identity (t : List Char) (p : Option (List Char)) (m : String) :
    (∃ pre, commitPayloadChars t p m =
        pre ++ ("author Noname <noreply@noname.com> 1709990458 +0200".data ++ ['\n'] ++
          ("committer Noname <noreply@noname.com> 1709990458 +0200".data ++ ['\n'])) ++
        ['\n'] ++ m.data ++ ['\n'] ∧
      pre = "tree ".data ++ t ++ ['\n'] ++
        (match p with
          | none => []
          | some q => "parent ".data ++ q ++ ['\n'])) ∧
    ∀ t' p' m', t = t' → p = p' → m = m' →
      commitId t p m = commitId t' p' m' := by
  constructor
  · refine ⟨"tree ".data ++ t ++ ['\n'] ++
      (match p with
        | none => []
        | some q => "parent ".data ++ q ++ ['\n']), ?_, rfl⟩
    cases p <;> simp [commitPayloadChars, wline]
  · rintro t' p' m' rfl rfl rfl
    rfl

/-- Witness for C9: equal inputs give the equal commit identifier. -/
theorem commit_fixed_identity_witness :
    commitId "aa".data none "x" = commitId "aa".data none "x" :=
  (commit_fixed_identity "aa".data none "x").2 "aa".data none "x" rfl rfl rfl

/-- C10: `write_object` called with `write_to_file = false` returns the same
identifier as with `write_to_file = true` but leaves the store untouched: no
directory is recorded and no file is written; likewise `hash_object` without
the write flag returns the identifier the writing variant would and leaves
the filesystem state unchanged. -/
theorem write_object_dry_run (kind : String) (content : List Nat)
    (compress : List Nat → List Nat) (writeCount : List Nat → Nat) (fs : FsState) :
    (writeObjectFS kind content false compress writeCount fs).1 =
      (writeObjectFS kind content true compress writeCount fs).1 ∧
    (writeObjectFS kind content false compress writeCount fs).2 = fs ∧
    ∀ path, hashObjectFS path false compress writeCount fs =
      (hashObjectFS path true compress writeCount fs).map fun r => (r.1, fs) := by
  refine ⟨rfl, rfl, ?_⟩
  intro path
  simp only [hashObjectFS]
  cases lookupFile path fs.files with
  | none => rfl
  | some bytes => simp [writeObjectFS]

end GitRs

